import Mathlib

/-!
Verification of the OS abstraction layer (hotspot runtime os.cpp).

The definitions below are a shallow embedding of the functions of
src/hotspot/share/runtime/os.cpp: pure functions become Lean functions,
machine integers become Nat with explicit mod 2 to the word width where
overflow matters, fallible platform calls become Option-valued oracles,
and the NMT ledger becomes an explicit state value threaded through the
allocator facade.  Subsystems that live outside the excerpt (MemTracker,
MallocHeader, SafeFetch32, AttachListener, the priority tables) are
modelled from the spec, as indicated in the doc comments.
-/

/-- Memory allocation category (the MEMFLAGS enum); modelled as an opaque index. -/
abbrev MEMFLAGS := Nat

/-- One allocation record of the tracking ledger: user visible address,
requested size, category flags, and the dead mark used around realloc.
Modelled from the spec: the Memory Tracking Ledger owns per-allocation
metadata (address, requested size, flags, liveness). -/
structure MallocRecord where
  addr : Nat
  size : Nat
  flags : MEMFLAGS
  dead : Bool
deriving DecidableEq

/-- Ledger state: the live allocation records plus total accounted bytes.
Modelled from the spec: the Memory Tracking Ledger. -/
structure Ledger where
  blocks : List MallocRecord
  total : Nat
deriving DecidableEq

/-- NMT configuration: tracking overhead per malloc, the enabled flag and the
MallocLimit predicate. Modelled from the spec: MemTracker.overhead_per_malloc,
MemTracker.enabled and MemTracker.check_exceeds_limit are outside the excerpt. -/
structure NMTConfig where
  overhead : Nat
  enabled : Bool
  exceeds : Nat → MEMFLAGS → Bool

/-- Platform allocator oracle: outcomes of the underlying libc malloc and
realloc calls (none means failure); addresses returned are outer addresses.
Modelled from the spec: the platform capability interface. -/
structure Platform where
  mallocResult : Nat → Option Nat
  reallocResult : Nat → Nat → Option Nat

/-- MemTracker.record_malloc: registers a new live block at the inner address
and accounts its size. Modelled from the spec. -/
def Ledger.recordMalloc (st : Ledger) (inner size : Nat) (flags : MEMFLAGS) : Ledger :=
  ⟨⟨inner, size, flags, false⟩ :: st.blocks, st.total + size⟩

/-- Lookup of the allocation record stored for a user visible address
(MallocTracker.malloc_header resolution). Modelled from the spec. -/
def Ledger.lookup (st : Ledger) (p : Nat) : Option MallocRecord :=
  st.blocks.find? (fun r => r.addr == p)

/-- MallocHeader.mark_block_as_dead: in-place dead tagging of the record at
address p. Modelled from the spec: the dead-mark before a risky platform call. -/
def Ledger.markDead (st : Ledger) (p : Nat) : Ledger :=
  ⟨st.blocks.map (fun r => if r.addr == p then ⟨r.addr, r.size, r.flags, true⟩ else r), st.total⟩

/-- MallocHeader.revive: clears the dead tag of the record at address p.
Modelled from the spec: rollback of the dead-mark on platform failure. -/
def Ledger.revive (st : Ledger) (p : Nat) : Ledger :=
  ⟨st.blocks.map (fun r => if r.addr == p then ⟨r.addr, r.size, r.flags, false⟩ else r), st.total⟩

/-- MemTracker.deaccount: removes the record at address p and subtracts the
accounted size. Modelled from the spec. -/
def Ledger.deaccount (st : Ledger) (p sz : Nat) : Ledger :=
  ⟨st.blocks.eraseP (fun r => r.addr == p), st.total - sz⟩

/-- os::malloc (os.cpp lines 619 to 663), after the NMT preinit phase: it
normalizes size 0 to 1, observes MallocLimit, computes the outer size in
wrap-around 64 bit arithmetic and rejects overflow, delegates to the platform
allocator, and on success registers the block and returns the inner pointer. -/
def os.malloc (cfg : NMTConfig) (plat : Platform) (st : Ledger) (size0 : Nat)
    (flags : MEMFLAGS) : Option Nat × Ledger :=
  let size := max 1 size0
  if cfg.exceeds size flags then (none, st)
  else
    let outer_size := (size + cfg.overhead) % 2 ^ 64
    if outer_size < size then (none, st)
    else
      match plat.mallocResult outer_size with
      | none => (none, st)
      | some outer =>
        let inner := outer + cfg.overhead
        (some inner, if cfg.enabled then st.recordMalloc inner size flags else st)

/-- Result of os::realloc or os::free: a returned pointer with the new ledger
state, or the fatal corruption path (assert on header mismatch or dead block). -/
inductive AllocOutcome where
  | ok (ret : Option Nat) (st : Ledger)
  | fatal
deriving DecidableEq

/-- os::realloc (os.cpp lines 669 to 753), after the NMT preinit phase: null
pointer degrades to malloc; with NMT enabled it normalizes the size, checks
outer size overflow, observes MallocLimit on growth, checks integrity of the
old header (dead block or flags mismatch is fatal), marks the old record dead,
calls the platform realloc, revives the record and returns null on failure,
and deaccounts plus re-records on success; with NMT disabled it passes
through to the platform realloc. -/
def os.realloc (cfg : NMTConfig) (plat : Platform) (st : Ledger) (memblock size0 : Nat)
    (flags : MEMFLAGS) : AllocOutcome :=
  if memblock == 0 then
    let r := os.malloc cfg plat st size0 flags
    .ok r.1 r.2
  else
    let size := max 1 size0
    if cfg.enabled then
      let new_outer_size := (size + cfg.overhead) % 2 ^ 64
      if new_outer_size < size then .ok none st
      else
        match st.lookup memblock with
        | none => .fatal
        | some hdr =>
          if size > hdr.size && cfg.exceeds (size - hdr.size) flags then .ok none st
          else if hdr.dead || flags != hdr.flags then .fatal
          else
            let stDead := st.markDead memblock
            match plat.reallocResult (memblock - cfg.overhead) new_outer_size with
            | none => .ok none (stDead.revive memblock)
            | some new_outer =>
              let stDe := stDead.deaccount memblock hdr.size
              .ok (some (new_outer + cfg.overhead))
                (stDe.recordMalloc (new_outer + cfg.overhead) size flags)
    else
      match plat.reallocResult memblock size with
      | none => .ok none st
      | some p => .ok (some p) st

/-- Result of os::free: the new ledger state, or the fatal corruption path. -/
inductive FreeOutcome where
  | ok (st : Ledger)
  | fatal
deriving DecidableEq

/-- os::free (os.cpp lines 755 to 772), after the NMT preinit phase: null is a
no-op; with NMT enabled the record is validated (absent or dead record is the
fatal corruption path) and removed with its size deaccounted; with NMT
disabled the call passes through to the platform free. -/
def os.free (cfg : NMTConfig) (st : Ledger) (p : Nat) : FreeOutcome :=
  if p == 0 then .ok st
  else if cfg.enabled then
    match st.lookup p with
    | none => .fatal
    | some r =>
      if r.dead then .fatal
      else .ok ⟨st.blocks.eraseP (fun rr => rr.addr == p), st.total - r.size⟩
  else .ok st

/-- os::next_random (os.cpp lines 779 to 811): the Park and Miller minimal
standard generator, next = (16807 * seed) mod (2 to the 31 minus 1), computed
with the Carta factorization using only 32 bit unsigned machine arithmetic;
every intermediate is reduced mod 2 to the 32 exactly as the C code does. -/
def os.next_random (rand_seed : Nat) : Nat :=
  let a := 16807
  let m := 2147483647
  let lo1 := (a * (rand_seed &&& 0xFFFF)) % 2 ^ 32
  let hi := (a * (rand_seed >>> 16)) % 2 ^ 32
  let lo2 := (lo1 + (((hi &&& 0x7FFF) <<< 16) % 2 ^ 32)) % 2 ^ 32
  let lo3 := if m < lo2 then ((lo2 &&& m) + 1) % 2 ^ 32 else lo2
  let lo4 := (lo3 + (hi >>> 15)) % 2 ^ 32
  if m < lo4 then ((lo4 &&& m) + 1) % 2 ^ 32 else lo4

/-- Fast modular exponentiation by structural recursion on a fuel bound, used
only to certify concrete power residues of the generator modulus by kernel
evaluation; powModAux fuel m a b computes a to the b mod m when b < 2 to the
fuel. -/
def powModAux (m : Nat) : Nat → Nat → Nat → Nat
  | 0, _, _ => 1 % m
  | fuel + 1, a, b =>
    if b = 0 then 1 % m
    else
      let r := powModAux m fuel ((a * a) % m) (b / 2)
      if b % 2 = 1 then (r * a) % m else r

/-- Floor base two logarithm by structural recursion on a fuel bound of 64,
so that kernel evaluation works on concrete inputs.  Modelled from the spec:
round_down_power_of_2 returns the highest surviving bit (powerOfTwo.hpp is
outside the excerpt). -/
def log2Aux : Nat → Nat → Nat
  | 0, _ => 0
  | fuel + 1, n => if n ≤ 1 then 0 else log2Aux fuel (n / 2) + 1

/-- round_down_power_of_2: the largest power of two at most n.  Modelled from
the spec: next_smaller returns the highest surviving bit of the masked set. -/
def round_down_power_of_2 (n : Nat) : Nat :=
  2 ^ log2Aux 64 n

/-- Count of trailing zero bits by structural recursion on a fuel bound of 64.
Modelled from the spec: next_larger returns the lowest surviving bit
(count_trailing_zeros of globalDefinitions is outside the excerpt). -/
def ctzAux : Nat → Nat → Nat
  | 0, _ => 0
  | fuel + 1, n => if n % 2 = 1 then 0 else ctzAux fuel (n / 2) + 1

/-- count_trailing_zeros for 64 bit values. -/
def count_trailing_zeros (n : Nat) : Nat :=
  ctzAux 64 n

/-- os::PageSizes (os.cpp lines 2081 to 2127): a bitmask over the 64 bit size
type in which bit k set means page size 2 to the k is supported. -/
structure os.PageSizes where
  v : Nat
deriving DecidableEq

/-- os::PageSizes::add (os.cpp line 2083): ORs the page size bit into the mask. -/
def os.PageSizes.add (ps : os.PageSizes) (page_size : Nat) : os.PageSizes :=
  ⟨ps.v ||| page_size⟩

/-- os::PageSizes::contains (os.cpp line 2088). -/
def os.PageSizes.contains (ps : os.PageSizes) (page_size : Nat) : Bool :=
  (ps.v &&& page_size) != 0

/-- os::PageSizes::next_smaller (os.cpp lines 2093 to 2100): masks off all
bits at or above page_size and returns the highest surviving bit, or 0. -/
def os.PageSizes.next_smaller (ps : os.PageSizes) (page_size : Nat) : Nat :=
  let v2 := ps.v &&& (page_size - 1)
  if v2 = 0 then 0 else round_down_power_of_2 v2

/-- os::PageSizes::next_larger (os.cpp lines 2102 to 2113): returns 0 for the
maximum representable power of two (a larger shift would be undefined), else
masks off all bits at or below page_size, where the 64 bit bitwise complement
is two to the 64 minus one XOR the operand, and returns the lowest surviving
bit, or 0. -/
def os.PageSizes.next_larger (ps : os.PageSizes) (page_size : Nat) : Nat :=
  if page_size = 2 ^ 63 then 0
  else
    let v2 := ps.v &&& ((2 ^ 64 - 1) ^^^ (page_size + (page_size - 1)))
    if v2 = 0 then 0 else 1 <<< count_trailing_zeros v2

/-- os::PageSizes::largest (os.cpp lines 2115 to 2121). -/
def os.PageSizes.largest (ps : os.PageSizes) : Nat :=
  if ps.contains (2 ^ 63) then 2 ^ 63 else ps.next_smaller (2 ^ 63)

/-- os::PageSizes::smallest (os.cpp lines 2123 to 2127). -/
def os.PageSizes.smallest (ps : os.PageSizes) : Nat :=
  ps.next_larger 1

/-- Configuration consumed by page_size_for_region: the large pages enablement
flag and the base OS page size (os::vm_page_size, platform defined). -/
structure PageConfig where
  useLargePages : Bool
  vmPageSize : Nat

/-- The descending walk of os::page_size_for_region (os.cpp lines 1566 to
1573), by structural recursion on a fuel bound of 64 (the walk visits each
mask bit at most once): returns the first page size, from the given one
downward through the registered sizes, that is at most max_ps and, when
alignment is required, divides the region size. -/
def psfrLoop (ps : os.PageSizes) (region max_ps : Nat) (aligned : Bool) :
    Nat → Nat → Option Nat
  | 0, _ => none
  | fuel + 1, page_size =>
    if page_size = 0 then none
    else if page_size ≤ max_ps && (!aligned || region % page_size == 0) then some page_size
    else psfrLoop ps region max_ps aligned fuel (ps.next_smaller page_size)

/-- os::page_size_for_region (os.cpp lines 1561 to 1577): when UseLargePages
is set, walks the registered page sizes from largest to smallest and returns
the first one with page_size at most region_size / min_pages that, when
must_be_aligned is set, divides region_size; otherwise, and when no size
qualifies, returns the base OS page size. -/
def os.page_size_for_region (cfg : PageConfig) (ps : os.PageSizes)
    (region_size min_pages : Nat) (must_be_aligned : Bool) : Nat :=
  if cfg.useLargePages then
    match psfrLoop ps region_size (region_size / min_pages) must_be_aligned 64 ps.largest with
    | some page_size => page_size
    | none => cfg.vmPageSize
  else cfg.vmPageSize

/-- The walk of page_size_for_region as the specification sentence words it,
with no large pages gate: walks registered sizes from largest to smallest,
returning the first qualifying page size, and falls back to the base OS page
size if none qualify.  This definition follows the words of the spec and is
compared against the source translation above. -/
def pageSizeForRegionClaimed (ps : os.PageSizes) (region_size min_pages : Nat)
    (must_be_aligned : Bool) (vmPageSize : Nat) : Nat :=
  match psfrLoop ps region_size (region_size / min_pages) must_be_aligned 64 ps.largest with
  | some page_size => page_size
  | none => vmPageSize

/-- align_down of globalDefinitions: rounds an address down to a multiple of
the alignment.  Modelled from the spec: alignment to a 4 byte boundary or to
the page size. -/
def align_down (x a : Nat) : Nat :=
  x / a * a

/-- SafeFetch32: a fault tolerant 32 bit read.  Modelled from the spec: the
read either returns the actual stored value, when the address is readable in
the memory map, or the caller supplied sentinel, without crashing. -/
def SafeFetch32 (mem : Nat → Option Nat) (adr errValue : Nat) : Nat :=
  match mem adr with
  | some v => v
  | none => errValue

/-- os::is_readable_pointer (os.cpp lines 1190 to 1195): aligns the pointer
down to a 4 byte boundary and probes it twice with two different sentinels. -/
def os.is_readable_pointer (mem : Nat → Option Nat) (p : Nat) : Bool :=
  let aligned := align_down p 4
  let cafebabe := 0xcafebabe
  let deadbeef := 0xdeadbeef
  decide (SafeFetch32 mem aligned cafebabe ≠ cafebabe) ||
    decide (SafeFetch32 mem aligned deadbeef ≠ deadbeef)

/-- The page strided probe loop of os::is_readable_range (os.cpp lines 1199
to 1203), by structural recursion on the trip count: probes n addresses
starting at p, striding by the minimum page size. -/
def probeAll (mem : Nat → Option Nat) (mps : Nat) : Nat → Nat → Bool
  | _, 0 => true
  | p, n + 1 => os.is_readable_pointer mem p && probeAll mem mps (p + mps) n

/-- os::is_readable_range (os.cpp lines 1197 to 1205): an empty or inverted
range is declared unreadable at once; otherwise every address of the range
aligned down to the minimum page size is probed, where the trip count of the
strided loop is the number of stride steps covering the range. -/
def os.is_readable_range (mem : Nat → Option Nat) (mps fromAddr toAddr : Nat) : Bool :=
  if fromAddr ≥ toAddr then false
  else
    let start := align_down fromAddr mps
    probeAll mem mps start ((toAddr - start + mps - 1) / mps)

/-- AttachListener states (AL_NOT_INITIALIZED, AL_INITIALIZING,
AL_INITIALIZED).  Modelled from the spec: the attach mechanism three state
negotiation guarding concurrent re-entry. -/
inductive ALState where
  | notInitialized
  | initializing
  | initialized
deriving DecidableEq

/-- Environment of one iteration of the signal dispatch thread: the platform
exit signal number, SIGBREAK, and oracles for every external call the body
makes (attach listener negotiation, the diagnostic dumps, the Java upcall and
its pending exception).  Modelled from the spec: those callees are outside
the excerpt. -/
structure SigEnv where
  sigexitnum : Int
  sigbreak : Int
  disableAttach : Bool
  attachTransit : ALState
  initTrigger : Bool
  socketFileMissing : Bool
  printClassHistogram : Bool
  upcallRaises : Bool
  ttyPresent : Bool
deriving DecidableEq

/-- Loop outcome of one iteration of signal_thread_entry. -/
inductive SigOutcome where
  | exitThread
  | continueLoop
deriving DecidableEq

/-- Observable result of one iteration of the signal dispatch loop: whether
the loop terminates, whether a pending exception remains at the end of the
iteration, whether the exception warning was printed, and whether the stack
trace dump ran. -/
structure SigStep where
  outcome : SigOutcome
  pendingException : Bool
  warned : Bool
  printedThreads : Bool
deriving DecidableEq

/-- One iteration of signal_thread_entry (os.cpp lines 363 to 463) after
signal_wait returned sig: the exit signal returns from the thread; SIGBREAK
runs the attach listener negotiation and, unless a negotiation branch
consumes the signal, the diagnostic dumps; any other signal is dispatched to
the Java level handler, and a pending exception raised by that upcall is
warned about (when tty is present) and cleared; every branch except the exit
signal loops back to the wait state. -/
def signalStep (env : SigEnv) (sig : Int) : SigStep :=
  if sig = env.sigexitnum then ⟨.exitThread, false, false, false⟩
  else if sig = env.sigbreak then
    if !env.disableAttach then
      match env.attachTransit with
      | .initializing => ⟨.continueLoop, false, false, false⟩
      | .notInitialized =>
        if env.initTrigger then ⟨.continueLoop, false, false, false⟩
        else ⟨.continueLoop, false, false, true⟩
      | .initialized =>
        if env.socketFileMissing then ⟨.continueLoop, false, false, false⟩
        else ⟨.continueLoop, false, false, true⟩
    else ⟨.continueLoop, false, false, true⟩
  else ⟨.continueLoop, false, env.upcallRaises && env.ttyPresent, false⟩

/-- The ThreadPriority lower extreme (MinPriority).  Modelled from the spec:
the small ordered set of abstract priority levels. -/
def MinPriority : Nat := 1

/-- The ThreadPriority upper extreme (MaxPriority). -/
def MaxPriority : Nat := 10

/-- The OS_OK return value. -/
def OS_OK : Int := 0

/-- The descending linear scan of os::get_priority (os.cpp lines 250 and
253), by structural recursion on the offset above MinPriority: while the scan
predicate holds and the level is above MinPriority, step down one level. -/
def prioScan (cond : Nat → Bool) : Nat → Nat
  | 0 => MinPriority
  | k + 1 => if cond (MinPriority + (k + 1)) then prioScan cond k else MinPriority + (k + 1)

/-- os::get_priority (os.cpp lines 243 to 257): queries the native priority
(modelled as the pair of a return code and the value the platform stored);
on native failure the code is returned unchanged and no priority is stored;
otherwise the table direction is detected by comparing the entries at the two
extremes and a descending linear scan finds the level, which is stored with
OS_OK. -/
def os.get_priority (jos : Nat → Int) (ret osPrio : Int) : Int × Option Nat :=
  if ret ≠ OS_OK then (ret, none)
  else
    let p :=
      if jos MaxPriority > jos MinPriority then
        prioScan (fun q => jos q > osPrio) (MaxPriority - MinPriority)
      else
        prioScan (fun q => jos q < osPrio) (MaxPriority - MinPriority)
    (OS_OK, some p)

/-- Reviving a record after marking it dead restores the ledger exactly, when
every record at that address was alive beforehand. -/
theorem Ledger.revive_markDead (st : Ledger) (p : Nat)
    (h : ∀ r ∈ st.blocks, r.addr = p → r.dead = false) :
    (st.markDead p).revive p = st := by
  cases st with
  | mk blocks total =>
    simp only [Ledger.markDead, Ledger.revive, List.map_map, Ledger.mk.injEq, and_true]
    induction blocks with
    | nil => rfl
    | cons r rs ih =>
      have hr : r.addr = p → r.dead = false := h r (by simp)
      have hrs : ∀ x ∈ rs, x.addr = p → x.dead = false := fun x hx => h x (by simp [hx])
      simp only [List.map_cons, List.cons.injEq]
      refine ⟨?_, ih hrs⟩
      cases r with
      | mk a s fl d =>
        by_cases hb : a = p
        · have : d = false := hr hb
          simp [Function.comp_apply, hb, this]
        · simp [Function.comp_apply, hb]

/-- C1: for every non-null pointer tracked live in the ledger with flags f,
os::realloc with matching flags returns null when the platform realloc fails
and leaves the ledger state exactly as before the call, so the original block
stays tracked, freeable and accounted unchanged (the record is marked dead
before the platform call and revived on failure). -/
theorem realloc_platform_failure_leaves_block_intact
    (cfg : NMTConfig) (plat : Platform) (st : Ledger) (ptr size0 : Nat) (flags : MEMFLAGS)
    (r : MallocRecord)
    (hen : cfg.enabled = true)
    (hptr : ptr ≠ 0)
    (hlook : st.lookup ptr = some r)
    (halive : ∀ rr ∈ st.blocks, rr.addr = ptr → rr.dead = false)
    (hflags : flags = r.flags)
    (hovf : ¬ ((max 1 size0 + cfg.overhead) % 2 ^ 64 < max 1 size0))
    (hfail : plat.reallocResult (ptr - cfg.overhead) ((max 1 size0 + cfg.overhead) % 2 ^ 64)
      = none) :
    os.realloc cfg plat st ptr size0 flags = .ok none st := by
  have hlook' : st.blocks.find? (fun rr => rr.addr == ptr) = some r := hlook
  have hdead : r.dead = false := by
    have hmem : r ∈ st.blocks := List.mem_of_find?_eq_some hlook'
    have haddr := List.find?_some hlook'
    exact halive r hmem (by simpa using haddr)
  unfold os.realloc
  simp only [beq_iff_eq, hptr, if_false, hen, if_true, hovf, hlook,
    Bool.false_eq_true, hdead, Bool.false_or, hflags, bne_self_eq_false, hfail]
  rw [Ledger.revive_markDead st ptr halive]
  split <;> rfl

/-- Witness for C1: a block obtained from os::malloc on the empty ledger, then
reallocated against a platform whose realloc always fails; the call returns
null and the ledger is exactly the post-malloc ledger. -/
theorem realloc_platform_failure_leaves_block_intact_witness :
    os.realloc (⟨8, true, fun _ _ => false⟩ : NMTConfig)
      (⟨fun _ => some 100, fun _ _ => none⟩ : Platform)
      (os.malloc (⟨8, true, fun _ _ => false⟩ : NMTConfig)
        (⟨fun _ => some 100, fun _ _ => none⟩ : Platform) ⟨[], 0⟩ 5 7).2 108 9 7
      = .ok none (os.malloc (⟨8, true, fun _ _ => false⟩ : NMTConfig)
        (⟨fun _ => some 100, fun _ _ => none⟩ : Platform) ⟨[], 0⟩ 5 7).2 :=
  realloc_platform_failure_leaves_block_intact _ _ _ 108 9 7 ⟨108, 5, 7, false⟩
    rfl (by decide) (by decide) (by decide) rfl (by decide) rfl

/-- Freeing a block just registered by record_malloc removes exactly that
record and restores the ledger, for a non-null inner pointer. -/
theorem free_recordMalloc (cfg : NMTConfig) (st : Ledger) (inner size : Nat) (flags : MEMFLAGS)
    (hen : cfg.enabled = true) (hinner : inner ≠ 0) :
    os.free cfg (st.recordMalloc inner size flags) inner = .ok st := by
  unfold os.free Ledger.recordMalloc Ledger.lookup
  rw [List.find?_cons_of_pos _ (by simp), List.eraseP_cons_of_pos (by simp)]
  simp only [beq_iff_eq, hinner, if_false, hen, if_true, Bool.false_eq_true, Nat.add_sub_cancel]

/-- C2: os::malloc normalizes a requested size of 0 to 1, so malloc(0, flags)
is identical to malloc(1, flags) as a state transformer; and whenever the
limit check passes, the outer size does not wrap, and the platform allocator
returns a non-null block, the zero size call returns a non-null inner pointer
whose block is freeable, the free round trip restoring the original ledger. -/
theorem malloc_zero_behaves_like_malloc_one
    (cfg : NMTConfig) (plat : Platform) (st : Ledger) (flags : MEMFLAGS) :
    os.malloc cfg plat st 0 flags = os.malloc cfg plat st 1 flags ∧
    (∀ outer : Nat, cfg.exceeds 1 flags = false →
      ¬ ((1 + cfg.overhead) % 2 ^ 64 < 1) →
      plat.mallocResult ((1 + cfg.overhead) % 2 ^ 64) = some outer →
      0 < outer →
      (os.malloc cfg plat st 0 flags).1 = some (outer + cfg.overhead) ∧
      os.free cfg (os.malloc cfg plat st 0 flags).2 (outer + cfg.overhead) = .ok st) := by
  refine ⟨rfl, ?_⟩
  intro outer hlim hovf hplat houter
  have hm : os.malloc cfg plat st 0 flags
      = (some (outer + cfg.overhead),
         if cfg.enabled then st.recordMalloc (outer + cfg.overhead) 1 flags else st) := by
    unfold os.malloc
    simp only [Nat.max_self, show (max 1 0 : Nat) = 1 from rfl, hlim, Bool.false_eq_true,
      if_false, hovf, hplat]
  rw [hm]
  refine ⟨rfl, ?_⟩
  by_cases hen : cfg.enabled
  · simp only [hen, if_true]
    exact free_recordMalloc cfg st (outer + cfg.overhead) 1 flags hen (by omega)
  · simp only [hen, if_false]
    unfold os.free
    have : ¬ ((outer + cfg.overhead == 0) = true) := by simp; omega
    simp only [this, if_false, hen]
    rfl

/-- Witness for C2: with overhead 16, a passing limit check and a platform
block at address 8, malloc of size 0 equals malloc of size 1, returns the
non-null inner pointer 24, and freeing it restores the empty ledger. -/
theorem malloc_zero_behaves_like_malloc_one_witness :
    os.malloc (⟨16, true, fun _ _ => false⟩ : NMTConfig)
        (⟨fun _ => some 8, fun _ _ => none⟩ : Platform) ⟨[], 0⟩ 0 2
      = os.malloc (⟨16, true, fun _ _ => false⟩ : NMTConfig)
        (⟨fun _ => some 8, fun _ _ => none⟩ : Platform) ⟨[], 0⟩ 1 2 ∧
    (os.malloc (⟨16, true, fun _ _ => false⟩ : NMTConfig)
        (⟨fun _ => some 8, fun _ _ => none⟩ : Platform) ⟨[], 0⟩ 0 2).1 = some 24 ∧
    os.free (⟨16, true, fun _ _ => false⟩ : NMTConfig)
        (os.malloc (⟨16, true, fun _ _ => false⟩ : NMTConfig)
          (⟨fun _ => some 8, fun _ _ => none⟩ : Platform) ⟨[], 0⟩ 0 2).2 24
      = .ok ⟨[], 0⟩ :=
  ⟨(malloc_zero_behaves_like_malloc_one _ _ _ 2).1,
   (malloc_zero_behaves_like_malloc_one _ _ _ 2).2 8 rfl (by decide) rfl (by decide)⟩

/-- C3: os::malloc computes the outer size as requested size plus tracking
overhead in wrap-around mod 2 to the 64 arithmetic and, whenever that
addition wraps below the (normalized) requested size, returns null with the
ledger untouched, for every platform oracle; os::realloc applies the same
overflow check to its new outer size whenever NMT is enabled (and through
the malloc path when the pointer is null). -/
theorem malloc_outer_size_overflow_returns_null
    (cfg : NMTConfig) (plat : Platform) (st : Ledger) (size0 ptr : Nat) (flags : MEMFLAGS)
    (hovf : (max 1 size0 + cfg.overhead) % 2 ^ 64 < max 1 size0) :
    os.malloc cfg plat st size0 flags = (none, st) ∧
    (cfg.enabled = true → os.realloc cfg plat st ptr size0 flags = .ok none st) := by
  have hmal : os.malloc cfg plat st size0 flags = (none, st) := by
    unfold os.malloc
    by_cases hex : cfg.exceeds (max 1 size0) flags = true
    · rw [if_pos hex]
    · rw [if_neg hex, if_pos hovf]
  refine ⟨hmal, fun hen => ?_⟩
  unfold os.realloc
  by_cases hp : ptr = 0
  · have hz : (ptr == 0) = true := by simp [hp]
    rw [if_pos hz, hmal]
  · have hz : ¬ ((ptr == 0) = true) := by simp [hp]
    rw [if_neg hz, if_pos hen, if_pos hovf]

/-- Witness for C3: with tracking overhead 1 and the maximal 64 bit request,
the outer size wraps to 0 and both malloc and realloc return null leaving the
ledger unchanged. -/
theorem malloc_outer_size_overflow_returns_null_witness :
    os.malloc (⟨1, true, fun _ _ => false⟩ : NMTConfig)
        (⟨fun _ => some 64, fun _ _ => some 64⟩ : Platform) ⟨[], 0⟩ (2 ^ 64 - 1) 4
      = (none, ⟨[], 0⟩) ∧
    os.realloc (⟨1, true, fun _ _ => false⟩ : NMTConfig)
        (⟨fun _ => some 64, fun _ _ => some 64⟩ : Platform) ⟨[], 0⟩ 32 (2 ^ 64 - 1) 4
      = .ok none ⟨[], 0⟩ :=
  ⟨(malloc_outer_size_overflow_returns_null _ _ _ (2 ^ 64 - 1) 32 4 (by decide)).1,
   (malloc_outer_size_overflow_returns_null _ _ _ (2 ^ 64 - 1) 32 4 (by decide)).2 rfl⟩

/-- C7: with the fault tolerant fetch modelled as returning the stored value
for readable addresses and the sentinel otherwise, os::is_readable_pointer
aligns the pointer down to a 4 byte boundary and returns true exactly when
that aligned address is readable, even when the readable memory happens to
contain one of the two sentinel values, which the double probe
disambiguates. -/
theorem is_readable_pointer_iff_readable (mem : Nat → Option Nat) (p : Nat) :
    os.is_readable_pointer mem p = (mem (align_down p 4)).isSome := by
  unfold os.is_readable_pointer SafeFetch32
  cases h : mem (align_down p 4) with
  | none => simp [h]
  | some v =>
    simp only [h, Option.isSome_some]
    by_cases hv : v = 0xcafebabe
    · subst hv
      simp
    · simp [hv]

/-- When the strided probe loop reports success, every probed stride address
was readable. -/
theorem probeAll_true_of_all (mem : Nat → Option Nat) (mps : Nat) :
    ∀ n p, probeAll mem mps p n = true →
      ∀ k, k < n → os.is_readable_pointer mem (p + k * mps) = true := by
  intro n
  induction n with
  | zero => intro p _ k hk; omega
  | succ n ih =>
    intro p h k hk
    rw [probeAll] at h
    rcases (Bool.and_eq_true _ _).mp h with ⟨h1, h2⟩
    cases k with
    | zero => simpa using h1
    | succ k =>
      have := ih (p + mps) h2 k (by omega)
      have harith : p + mps + k * mps = p + (k + 1) * mps := by ring
      rwa [harith] at this

/-- C9: os::is_readable_range returns false outright for an empty or inverted
range, and for a proper range it returns true only if every address in the
range that is aligned to the minimum page size (starting from the aligned
down range start) probes as readable. -/
theorem is_readable_range_spec (mem : Nat → Option Nat) (mps fromAddr toAddr : Nat)
    (hmps : 0 < mps) :
    (fromAddr ≥ toAddr → os.is_readable_range mem mps fromAddr toAddr = false) ∧
    (fromAddr < toAddr → os.is_readable_range mem mps fromAddr toAddr = true →
      ∀ q, q % mps = 0 → align_down fromAddr mps ≤ q → q < toAddr →
        os.is_readable_pointer mem q = true) := by
  constructor
  · intro hge
    unfold os.is_readable_range
    rw [if_pos hge]
  · intro hlt htrue q hqmod hqlow hqhigh
    unfold os.is_readable_range at htrue
    rw [if_neg (by omega)] at htrue
    set start := align_down fromAddr mps with hstart
    set n := (toAddr - start + mps - 1) / mps with hn
    have hdvd_start : mps ∣ start := Dvd.intro_left _ rfl
    have hdvd_q : mps ∣ q := Nat.dvd_of_mod_eq_zero hqmod
    have hdvd_diff : mps ∣ (q - start) := Nat.dvd_sub' hdvd_q hdvd_start
    set k := (q - start) / mps with hk
    have hkmul : k * mps = q - start := Nat.div_mul_cancel hdvd_diff
    have hq_eq : q = start + k * mps := by omega
    have hD1 : mps * n + (toAddr - start + mps - 1) % mps = toAddr - start + mps - 1 :=
      Nat.div_add_mod _ _
    have hD2 : (toAddr - start + mps - 1) % mps < mps := Nat.mod_lt _ hmps
    have hklt : k < n := by
      by_contra hc
      have hle : n * mps ≤ k * mps := Nat.mul_le_mul_right mps (by omega)
      have hcm : n * mps = mps * n := Nat.mul_comm _ _
      omega
    have := probeAll_true_of_all mem mps n start htrue k hklt
    rwa [← hq_eq] at this

/-- Witness for C9: with minimum page size 4 over a memory readable below
address 100, the range query instantiates with its positivity hypothesis
discharged at a concrete input. -/
theorem is_readable_range_spec_witness :
    0 < 4 ∧
    (((5 : Nat) ≥ 3 →
        os.is_readable_range (fun a => if a < 100 then some 1 else none) 4 5 3 = false) ∧
      ((5 : Nat) < 3 →
        os.is_readable_range (fun a => if a < 100 then some 1 else none) 4 5 3 = true →
        ∀ q, q % 4 = 0 → align_down 5 4 ≤ q → q < 3 →
          os.is_readable_pointer (fun a => if a < 100 then some 1 else none) q = true)) :=
  ⟨by decide, is_readable_range_spec (fun a => if a < 100 then some 1 else none) 4 5 3 (by decide)⟩

/-- The descending priority scan always lands between MinPriority and
MinPriority plus its starting offset. -/
theorem prioScan_bounds (cond : Nat → Bool) :
    ∀ k, MinPriority ≤ prioScan cond k ∧ prioScan cond k ≤ MinPriority + k := by
  intro k
  induction k with
  | zero => simp [prioScan]
  | succ k ih =>
    rw [prioScan]
    by_cases hc : cond (MinPriority + (k + 1)) = true
    · rw [if_pos hc]
      omega
    · rw [if_neg hc]
      omega

/-- C10: whenever the native priority query succeeds, os::get_priority
returns OS_OK together with a stored priority that lies within MinPriority
and MaxPriority, for every priority table (hence for the ascending direction
and for the reversed niceness direction alike) and every native value: the
descending linear scan cannot leave the range. -/
theorem get_priority_returns_priority_in_range (jos : Nat → Int) (osPrio : Int) :
    ∃ p, os.get_priority jos OS_OK osPrio = (OS_OK, some p) ∧
      MinPriority ≤ p ∧ p ≤ MaxPriority := by
  unfold os.get_priority
  rw [if_neg (by simp)]
  by_cases hdir : jos MaxPriority > jos MinPriority
  · rw [if_pos hdir]
    refine ⟨_, rfl, ?_⟩
    have := prioScan_bounds (fun q => jos q > osPrio) (MaxPriority - MinPriority)
    unfold MinPriority MaxPriority at *
    omega
  · rw [if_neg hdir]
    refine ⟨_, rfl, ?_⟩
    have := prioScan_bounds (fun q => jos q < osPrio) (MaxPriority - MinPriority)
    unfold MinPriority MaxPriority at *
    omega

/-- C8: in the signal dispatch iteration, the only outcome that terminates
the loop is receiving the platform exit signal; every other signal number
leaves the thread looping back to the wait state with no pending exception
left behind, and for a non SIGBREAK signal the Java upcall exception, when
raised, is warned about exactly when tty is present and is always cleared,
so the dispatch loop never terminates because a handler failed. -/
theorem signalStep_exits_only_on_exit_signal (env : SigEnv) (sig : Int) :
    ((signalStep env sig).outcome = .exitThread ↔ sig = env.sigexitnum) ∧
    (sig ≠ env.sigexitnum →
      (signalStep env sig).outcome = .continueLoop ∧
      (signalStep env sig).pendingException = false ∧
      (sig ≠ env.sigbreak →
        (signalStep env sig).warned = (env.upcallRaises && env.ttyPresent))) := by
  obtain ⟨se, sb, da, atr, it, sfm, pch, ur, tp⟩ := env
  unfold signalStep
  by_cases h1 : sig = se
  · simp [h1]
  · rw [if_neg h1]
    by_cases h2 : sig = sb
    · rw [if_pos h2]
      cases da <;> cases atr <;> cases it <;> cases sfm <;> simp [h1, h2] <;> omega
    · rw [if_neg h2]
      simp [h1, h2]

/-- Witness for C8: a concrete environment with exit signal 9 and SIGBREAK 3;
signal 5 dispatches to the Java handler, whose raised exception is cleared,
and the loop continues. -/
theorem signalStep_exits_only_on_exit_signal_witness :
    ((signalStep ⟨9, 3, false, .notInitialized, false, false, false, true, true⟩ 5).outcome
        = .exitThread ↔ (5 : Int) = 9) ∧
    ((5 : Int) ≠ 9 →
      (signalStep ⟨9, 3, false, .notInitialized, false, false, false, true, true⟩ 5).outcome
          = .continueLoop ∧
      (signalStep ⟨9, 3, false, .notInitialized, false, false, false, true, true⟩
          5).pendingException = false ∧
      ((5 : Int) ≠ 3 →
        (signalStep ⟨9, 3, false, .notInitialized, false, false, false, true, true⟩ 5).warned
          = (true && true))) :=
  signalStep_exits_only_on_exit_signal ⟨9, 3, false, .notInitialized, false, false, false, true, true⟩ 5

/-- Bitwise AND with a low bit mask is reduction mod the power of two. -/
theorem land_two_pow_sub_one (n k : Nat) : n &&& (2 ^ k - 1) = n % 2 ^ k := by
  apply Nat.eq_of_testBit_eq
  intro i
  rw [Nat.testBit_land, Nat.testBit_two_pow_sub_one, Nat.testBit_mod_two_pow]
  by_cases h : i < k <;> simp [h]

/-- The fuel bounded floor logarithm brackets its argument between
consecutive powers of two. -/
theorem log2Aux_spec : ∀ fuel n, 0 < n → n < 2 ^ fuel →
    2 ^ log2Aux fuel n ≤ n ∧ n < 2 ^ (log2Aux fuel n + 1) := by
  intro fuel
  induction fuel with
  | zero => intro n h1 h2; omega
  | succ fuel ih =>
    intro n h1 h2
    rw [log2Aux]
    by_cases hn : n ≤ 1
    · rw [if_pos hn]
      simp
      omega
    · rw [if_neg hn]
      have hdiv : n / 2 < 2 ^ fuel := by
        rw [Nat.div_lt_iff_lt_mul (by omega)]
        rw [pow_succ] at h2
        omega
      obtain ⟨ha, hb⟩ := ih (n / 2) (by omega) hdiv
      have e1 : 2 ^ (log2Aux fuel (n / 2) + 1) = 2 * 2 ^ log2Aux fuel (n / 2) := by
        rw [pow_succ]; ring
      have e2 : 2 ^ (log2Aux fuel (n / 2) + 1 + 1) = 2 * 2 ^ (log2Aux fuel (n / 2) + 1) := by
        rw [pow_succ (2 : Nat) (log2Aux fuel (n / 2) + 1)]; ring
      omega

/-- The fuel bounded trailing zero count points at the lowest set bit. -/
theorem ctzAux_spec : ∀ fuel n, 0 < n → n < 2 ^ fuel →
    n.testBit (ctzAux fuel n) = true ∧ ∀ k, k < ctzAux fuel n → n.testBit k = false := by
  intro fuel
  induction fuel with
  | zero => intro n h1 h2; omega
  | succ fuel ih =>
    intro n h1 h2
    rw [ctzAux]
    by_cases hodd : n % 2 = 1
    · rw [if_pos hodd]
      refine ⟨by simp [Nat.testBit_zero, hodd], by omega⟩
    · rw [if_neg hodd]
      have hdiv : n / 2 < 2 ^ fuel := by
        rw [Nat.div_lt_iff_lt_mul (by omega)]
        rw [pow_succ] at h2
        omega
      obtain ⟨ha, hb⟩ := ih (n / 2) (by omega) hdiv
      refine ⟨by rw [Nat.testBit_succ]; exact ha, ?_⟩
      intro k hk
      cases k with
      | zero => simp [Nat.testBit_zero]; omega
      | succ k =>
        rw [Nat.testBit_succ]
        exact hb k (by omega)

/-- Mask membership of a power of two is exactly the corresponding bit. -/
theorem contains_pow_iff (v k : Nat) :
    (os.PageSizes.contains ⟨v⟩ (2 ^ k) = true) ↔ v.testBit k := by
  unfold os.PageSizes.contains
  rw [Nat.and_two_pow]
  cases h : v.testBit k <;> simp [h]

/-- Characterization of PageSizes.next_smaller at a power of two: the result
is 0 when no bit below j is set, and otherwise the highest set bit below j. -/
theorem nextSmaller_char (v j : Nat) (hv : v < 2 ^ 64) :
    (os.PageSizes.next_smaller ⟨v⟩ (2 ^ j) = 0 ∧ ∀ i, i < j → v.testBit i = false) ∨
    (∃ i, i < j ∧ v.testBit i = true ∧ os.PageSizes.next_smaller ⟨v⟩ (2 ^ j) = 2 ^ i ∧
      ∀ i2, i2 < j → v.testBit i2 = true → i2 ≤ i) := by
  unfold os.PageSizes.next_smaller
  rw [land_two_pow_sub_one]
  by_cases h0 : v % 2 ^ j = 0
  · left
    rw [if_pos h0]
    refine ⟨rfl, fun i hi => ?_⟩
    have hmod := Nat.testBit_mod_two_pow v j i
    rw [h0, Nat.zero_testBit] at hmod
    simpa [hi] using hmod.symm
  · right
    rw [if_neg h0]
    unfold round_down_power_of_2
    have hlt64 : v % 2 ^ j < 2 ^ 64 := lt_of_le_of_lt (Nat.mod_le _ _) hv
    obtain ⟨ha, hb⟩ := log2Aux_spec 64 (v % 2 ^ j) (Nat.pos_of_ne_zero h0) hlt64
    set L := log2Aux 64 (v % 2 ^ j) with hL
    have hbit : (v % 2 ^ j).testBit L = true := by
      rw [Nat.testBit_to_div_mod]
      have hp : 0 < 2 ^ L := Nat.pos_pow_of_pos L (by omega)
      have h1 : 1 ≤ (v % 2 ^ j) / 2 ^ L := (Nat.one_le_div_iff hp).mpr ha
      have h2 : (v % 2 ^ j) / 2 ^ L < 2 := by
        rw [Nat.div_lt_iff_lt_mul hp]
        rw [pow_succ] at hb
        omega
      have hdone : (v % 2 ^ j) / 2 ^ L = 1 := by omega
      simp [hdone]
    have hmod := Nat.testBit_mod_two_pow v j L
    rw [hbit] at hmod
    by_cases hLj : L < j
    · simp only [hLj, decide_True, Bool.true_and] at hmod
      refine ⟨L, hLj, hmod.symm, rfl, ?_⟩
      intro i2 h2j h2bit
      have hmem : (v % 2 ^ j).testBit i2 = true := by
        rw [Nat.testBit_mod_two_pow]
        simp [h2j, h2bit]
      have h2le : 2 ^ i2 ≤ v % 2 ^ j := Nat.testBit_implies_ge hmem
      have h2lt : 2 ^ i2 < 2 ^ (L + 1) := lt_of_le_of_lt h2le hb
      have := (Nat.pow_lt_pow_iff_right (a := 2) (by omega)).mp h2lt
      omega
    · simp [hLj] at hmod

/-- Characterization of PageSizes.next_larger at a power of two: the result
is 0 at the maximum representable power of two or when no bit above j is
set, and otherwise the lowest set bit above j. -/
theorem nextLarger_char (v j : Nat) (hv : v < 2 ^ 64) (hj : j ≤ 63) :
    (os.PageSizes.next_larger ⟨v⟩ (2 ^ j) = 0 ∧ ∀ i, j < i → v.testBit i = false) ∨
    (∃ i, j < i ∧ i < 64 ∧ v.testBit i = true ∧ os.PageSizes.next_larger ⟨v⟩ (2 ^ j) = 2 ^ i ∧
      ∀ i2, j < i2 → v.testBit i2 = true → i ≤ i2) := by
  have hhigh : ∀ i, 64 ≤ i → v.testBit i = false := by
    intro i hi
    exact Nat.testBit_lt_two_pow
      (lt_of_lt_of_le hv (Nat.pow_le_pow_right (by omega) hi))
  unfold os.PageSizes.next_larger
  by_cases hmax : (2 : Nat) ^ j = 2 ^ 63
  · left
    rw [if_pos hmax]
    have hj63 : j = 63 := by
      rcases Nat.lt_or_ge j 63 with h | h
      · exfalso
        have := (Nat.pow_lt_pow_iff_right (a := 2) (by omega)).mpr h
        omega
      · omega
    exact ⟨rfl, fun i hi => hhigh i (by omega)⟩
  · rw [if_neg hmax]
    have hjlt : j < 63 := by
      rcases Nat.lt_or_ge j 63 with h | h
      · exact h
      · exfalso
        have : j = 63 := by omega
        rw [this] at hmax
        exact hmax rfl
    have hm : (2 : Nat) ^ j + (2 ^ j - 1) = 2 ^ (j + 1) - 1 := by
      have hp : 0 < (2 : Nat) ^ j := Nat.pos_pow_of_pos j (by omega)
      rw [pow_succ]
      omega
    rw [hm]
    have hbit2 : ∀ i, (v &&& ((2 ^ 64 - 1) ^^^ (2 ^ (j + 1) - 1))).testBit i
        = (v.testBit i && (decide (j < i) && decide (i < 64))) := by
      intro i
      rw [Nat.testBit_land, Nat.testBit_xor, Nat.testBit_two_pow_sub_one,
        Nat.testBit_two_pow_sub_one]
      by_cases c1 : i < 64
      · by_cases c2 : i < j + 1
        · have hc : ¬ j < i := by omega
          simp [c1, c2, hc]
        · have hc : j < i := by omega
          simp [c1, c2, hc]
      · have hc2 : ¬ i < j + 1 := by omega
        simp [c1, hc2]
    by_cases h0 : v &&& ((2 ^ 64 - 1) ^^^ (2 ^ (j + 1) - 1)) = 0
    · left
      rw [if_pos h0]
      refine ⟨rfl, fun i hi => ?_⟩
      rcases Nat.lt_or_ge i 64 with hilt | hige
      · have := hbit2 i
        rw [h0, Nat.zero_testBit] at this
        simpa [hi, hilt] using this.symm
      · exact hhigh i hige
    · right
      rw [if_neg h0]
      have hle : v &&& ((2 ^ 64 - 1) ^^^ (2 ^ (j + 1) - 1)) < 2 ^ 64 :=
        lt_of_le_of_lt Nat.and_le_left hv
      obtain ⟨ha, hb⟩ := ctzAux_spec 64 _ (Nat.pos_of_ne_zero h0) hle
      set c := ctzAux 64 (v &&& ((2 ^ 64 - 1) ^^^ (2 ^ (j + 1) - 1))) with hc
      rw [hbit2 c] at ha
      have hvc : v.testBit c = true := by
        rcases Bool.and_eq_true _ _ |>.mp ha with ⟨h1, _⟩
        exact h1
      have hjc : j < c ∧ c < 64 := by
        rcases Bool.and_eq_true _ _ |>.mp ha with ⟨_, h2⟩
        rcases Bool.and_eq_true _ _ |>.mp h2 with ⟨h3, h4⟩
        exact ⟨of_decide_eq_true h3, of_decide_eq_true h4⟩
      refine ⟨c, hjc.1, hjc.2, hvc, by rw [Nat.shiftLeft_eq, one_mul]; rfl, ?_⟩
      intro i2 h2j h2bit
      rcases Nat.lt_or_ge i2 64 with h2lt | h2ge
      · by_contra hcon
        have hlt : i2 < c := by omega
        have := hb i2 hlt
        rw [hbit2 i2] at this
        simp [h2bit, h2j, h2lt] at this
      · exfalso
        rw [hhigh i2 h2ge] at h2bit
        exact Bool.false_ne_true h2bit

/-- C4: over any 64 bit mask of power of two page sizes, next_smaller at a
power of two p returns the largest mask element strictly below p (0 when
there is none), next_larger returns the smallest mask element strictly above
p (0 when there is none), next_larger applied to the maximum representable
power of two returns 0 instead of performing an undefined shift, and on the
concrete mask of 4K, 16K and 2M: next_larger 4K is 16K, next_smaller 2M is
16K, largest is 2M, smallest is 4K, and next_larger 2M is 0. -/
theorem pageSizes_next_queries (v j : Nat) (hv : v < 2 ^ 64) (hj : j ≤ 63) :
    ((os.PageSizes.next_smaller ⟨v⟩ (2 ^ j) = 0 ∧
        ∀ q, (∃ k, q = 2 ^ k) → os.PageSizes.contains ⟨v⟩ q = true → ¬ q < 2 ^ j) ∨
      (os.PageSizes.contains ⟨v⟩ (os.PageSizes.next_smaller ⟨v⟩ (2 ^ j)) = true ∧
        os.PageSizes.next_smaller ⟨v⟩ (2 ^ j) < 2 ^ j ∧
        ∀ q, (∃ k, q = 2 ^ k) → os.PageSizes.contains ⟨v⟩ q = true → q < 2 ^ j →
          q ≤ os.PageSizes.next_smaller ⟨v⟩ (2 ^ j))) ∧
    ((os.PageSizes.next_larger ⟨v⟩ (2 ^ j) = 0 ∧
        ∀ q, (∃ k, q = 2 ^ k) → os.PageSizes.contains ⟨v⟩ q = true → ¬ 2 ^ j < q) ∨
      (os.PageSizes.contains ⟨v⟩ (os.PageSizes.next_larger ⟨v⟩ (2 ^ j)) = true ∧
        2 ^ j < os.PageSizes.next_larger ⟨v⟩ (2 ^ j) ∧
        ∀ q, (∃ k, q = 2 ^ k) → os.PageSizes.contains ⟨v⟩ q = true → 2 ^ j < q →
          os.PageSizes.next_larger ⟨v⟩ (2 ^ j) ≤ q)) ∧
    os.PageSizes.next_larger ⟨v⟩ (2 ^ 63) = 0 ∧
    (((os.PageSizes.add (os.PageSizes.add (os.PageSizes.add ⟨0⟩ 4096) 16384)
        2097152).next_larger 4096 = 16384 ∧
      (os.PageSizes.add (os.PageSizes.add (os.PageSizes.add ⟨0⟩ 4096) 16384)
        2097152).next_smaller 2097152 = 16384 ∧
      (os.PageSizes.add (os.PageSizes.add (os.PageSizes.add ⟨0⟩ 4096) 16384)
        2097152).largest = 2097152 ∧
      (os.PageSizes.add (os.PageSizes.add (os.PageSizes.add ⟨0⟩ 4096) 16384)
        2097152).smallest = 4096 ∧
      (os.PageSizes.add (os.PageSizes.add (os.PageSizes.add ⟨0⟩ 4096) 16384)
        2097152).next_larger 2097152 = 0)) := by
  refine ⟨?_, ?_, ?_, by decide⟩
  · rcases nextSmaller_char v j hv with ⟨hz, hnone⟩ | ⟨i, hij, hbit, heq, hmaxi⟩
    · left
      refine ⟨hz, ?_⟩
      rintro q ⟨k, rfl⟩ hcont hlt
      have hk : k < j := (Nat.pow_lt_pow_iff_right (a := 2) (by omega)).mp hlt
      have := hnone k hk
      rw [(contains_pow_iff v k).mp hcont] at this
      exact absurd this (by simp)
    · right
      rw [heq]
      refine ⟨(contains_pow_iff v i).mpr hbit, (Nat.pow_lt_pow_iff_right (a := 2) (by omega)).mpr hij, ?_⟩
      rintro q ⟨k, rfl⟩ hcont hlt
      have hk : k < j := (Nat.pow_lt_pow_iff_right (a := 2) (by omega)).mp hlt
      have hkb : v.testBit k := (contains_pow_iff v k).mp hcont
      have := hmaxi k hk hkb
      exact (Nat.pow_le_pow_iff_right (a := 2) (by omega)).mpr this
  · rcases nextLarger_char v j hv hj with ⟨hz, hnone⟩ | ⟨i, hij, _hi64, hbit, heq, hmini⟩
    · left
      refine ⟨hz, ?_⟩
      rintro q ⟨k, rfl⟩ hcont hlt
      have hk : j < k := (Nat.pow_lt_pow_iff_right (a := 2) (by omega)).mp hlt
      have := hnone k hk
      rw [(contains_pow_iff v k).mp hcont] at this
      exact absurd this (by simp)
    · right
      rw [heq]
      refine ⟨(contains_pow_iff v i).mpr hbit, (Nat.pow_lt_pow_iff_right (a := 2) (by omega)).mpr hij, ?_⟩
      rintro q ⟨k, rfl⟩ hcont hlt
      have hk : j < k := (Nat.pow_lt_pow_iff_right (a := 2) (by omega)).mp hlt
      have hkb : v.testBit k := (contains_pow_iff v k).mp hcont
      have := hmini k hk hkb
      exact (Nat.pow_le_pow_iff_right (a := 2) (by omega)).mpr this
  · unfold os.PageSizes.next_larger
    rw [if_pos rfl]

/-- Witness for C4: the characterization instantiated at the mask of 4K, 16K
and 2M and the page size 16K, with both hypotheses discharged. -/
theorem pageSizes_next_queries_witness :
    (2118656 : Nat) < 2 ^ 64 ∧ (14 : Nat) ≤ 63 ∧
    (((os.PageSizes.next_smaller ⟨2118656⟩ (2 ^ 14) = 0 ∧
        ∀ q, (∃ k, q = 2 ^ k) → os.PageSizes.contains ⟨2118656⟩ q = true → ¬ q < 2 ^ 14) ∨
      (os.PageSizes.contains ⟨2118656⟩ (os.PageSizes.next_smaller ⟨2118656⟩ (2 ^ 14)) = true ∧
        os.PageSizes.next_smaller ⟨2118656⟩ (2 ^ 14) < 2 ^ 14 ∧
        ∀ q, (∃ k, q = 2 ^ k) → os.PageSizes.contains ⟨2118656⟩ q = true → q < 2 ^ 14 →
          q ≤ os.PageSizes.next_smaller ⟨2118656⟩ (2 ^ 14))) ∧
    ((os.PageSizes.next_larger ⟨2118656⟩ (2 ^ 14) = 0 ∧
        ∀ q, (∃ k, q = 2 ^ k) → os.PageSizes.contains ⟨2118656⟩ q = true → ¬ 2 ^ 14 < q) ∨
      (os.PageSizes.contains ⟨2118656⟩ (os.PageSizes.next_larger ⟨2118656⟩ (2 ^ 14)) = true ∧
        2 ^ 14 < os.PageSizes.next_larger ⟨2118656⟩ (2 ^ 14) ∧
        ∀ q, (∃ k, q = 2 ^ k) → os.PageSizes.contains ⟨2118656⟩ q = true → 2 ^ 14 < q →
          os.PageSizes.next_larger ⟨2118656⟩ (2 ^ 14) ≤ q)) ∧
    os.PageSizes.next_larger ⟨2118656⟩ (2 ^ 63) = 0 ∧
    (((os.PageSizes.add (os.PageSizes.add (os.PageSizes.add ⟨0⟩ 4096) 16384)
        2097152).next_larger 4096 = 16384 ∧
      (os.PageSizes.add (os.PageSizes.add (os.PageSizes.add ⟨0⟩ 4096) 16384)
        2097152).next_smaller 2097152 = 16384 ∧
      (os.PageSizes.add (os.PageSizes.add (os.PageSizes.add ⟨0⟩ 4096) 16384)
        2097152).largest = 2097152 ∧
      (os.PageSizes.add (os.PageSizes.add (os.PageSizes.add ⟨0⟩ 4096) 16384)
        2097152).smallest = 4096 ∧
      (os.PageSizes.add (os.PageSizes.add (os.PageSizes.add ⟨0⟩ 4096) 16384)
        2097152).next_larger 2097152 = 0))) :=
  ⟨by decide, by decide, pageSizes_next_queries 2118656 14 (by decide) (by decide)⟩

/-- Characterization of PageSizes.largest: 0 on the empty mask, otherwise the
highest set bit. -/
theorem largest_char (v : Nat) (hv : v < 2 ^ 64) :
    (os.PageSizes.largest ⟨v⟩ = 0 ∧ ∀ i, v.testBit i = false) ∨
    (∃ i, i < 64 ∧ v.testBit i = true ∧ os.PageSizes.largest ⟨v⟩ = 2 ^ i ∧
      ∀ i2, v.testBit i2 = true → i2 ≤ i) := by
  have hhigh : ∀ i, 64 ≤ i → v.testBit i = false := fun i hi =>
    Nat.testBit_lt_two_pow (lt_of_lt_of_le hv (Nat.pow_le_pow_right (by omega) hi))
  unfold os.PageSizes.largest
  by_cases hc : os.PageSizes.contains ⟨v⟩ (2 ^ 63) = true
  · rw [if_pos hc]
    right
    refine ⟨63, by omega, (contains_pow_iff v 63).mp hc, rfl, ?_⟩
    intro i2 hb2
    by_contra hcon
    rw [hhigh i2 (by omega)] at hb2
    exact Bool.false_ne_true hb2
  · rw [if_neg hc]
    have hb63 : v.testBit 63 = false := by
      by_contra hcon
      exact hc ((contains_pow_iff v 63).mpr (by revert hcon; cases v.testBit 63 <;> simp))
    rcases nextSmaller_char v 63 hv with ⟨hz, hnone⟩ | ⟨i, hi63, hbit, heq, hmaxi⟩
    · left
      refine ⟨hz, fun i => ?_⟩
      rcases Nat.lt_or_ge i 63 with h | h
      · exact hnone i h
      · rcases Nat.lt_or_ge i 64 with h2 | h2
        · have : i = 63 := by omega
          rw [this]
          exact hb63
        · exact hhigh i h2
    · right
      refine ⟨i, by omega, hbit, heq, ?_⟩
      intro i2 hb2
      rcases Nat.lt_or_ge i2 63 with h | h
      · exact hmaxi i2 h hb2
      · rcases Nat.lt_or_ge i2 64 with h2 | h2
        · have : i2 = 63 := by omega
          rw [this, hb63] at hb2
          exact absurd hb2 (by simp)
        · rw [hhigh i2 h2] at hb2
          exact absurd hb2 (by simp)

/-- The boolean qualification test of the page walk agrees with its
propositional reading. -/
theorem qualBool_iff (region max_ps q : Nat) (aligned : Bool) :
    ((decide (q ≤ max_ps) && (!aligned || region % q == 0)) = true) ↔
      (q ≤ max_ps ∧ (aligned = true → region % q = 0)) := by
  cases aligned <;> simp

/-- The page walk stops with no result from a zero page size. -/
theorem psfrLoop_zero (ps : os.PageSizes) (region max_ps : Nat) (aligned : Bool) :
    ∀ fuel, psfrLoop ps region max_ps aligned fuel 0 = none := by
  intro fuel
  cases fuel with
  | zero => rfl
  | succ fuel => rw [psfrLoop, if_pos rfl]

/-- The descending page walk, started at a set bit of the mask below which
everything larger is disqualified, returns the largest qualifying mask
element at or below the start, or none when no mask element qualifies. -/
theorem psfrLoop_spec (v region max_ps : Nat) (aligned : Bool) (hv : v < 2 ^ 64) :
    ∀ fuel k, v.testBit k = true → k < 64 → k + 1 ≤ fuel →
      (∀ i2, k < i2 → v.testBit i2 = true →
        ¬ (2 ^ i2 ≤ max_ps ∧ (aligned = true → region % 2 ^ i2 = 0))) →
      (∃ i, i ≤ k ∧ v.testBit i = true ∧
          (2 ^ i ≤ max_ps ∧ (aligned = true → region % 2 ^ i = 0)) ∧
          psfrLoop ⟨v⟩ region max_ps aligned fuel (2 ^ k) = some (2 ^ i) ∧
          (∀ i2, i < i2 → v.testBit i2 = true →
            ¬ (2 ^ i2 ≤ max_ps ∧ (aligned = true → region % 2 ^ i2 = 0)))) ∨
      (psfrLoop ⟨v⟩ region max_ps aligned fuel (2 ^ k) = none ∧
        ∀ i, v.testBit i = true →
          ¬ (2 ^ i ≤ max_ps ∧ (aligned = true → region % 2 ^ i = 0))) := by
  intro fuel
  induction fuel with
  | zero => intro k _ _ hle _; omega
  | succ fuel ih =>
    intro k hbk hk64 hfuel habove
    rw [psfrLoop]
    have hpz : ¬ ((2 : Nat) ^ k = 0) := by
      have := Nat.pos_pow_of_pos k (show 0 < 2 by omega)
      omega
    rw [if_neg hpz]
    by_cases hqual : (decide (2 ^ k ≤ max_ps) && (!aligned || region % 2 ^ k == 0)) = true
    · rw [if_pos hqual]
      left
      exact ⟨k, le_refl k, hbk, (qualBool_iff region max_ps (2 ^ k) aligned).mp hqual,
        rfl, habove⟩
    · rw [if_neg hqual]
      have hnq : ¬ (2 ^ k ≤ max_ps ∧ (aligned = true → region % 2 ^ k = 0)) :=
        fun h => hqual ((qualBool_iff region max_ps (2 ^ k) aligned).mpr h)
      have habove' : ∀ i2, k ≤ i2 → v.testBit i2 = true →
          ¬ (2 ^ i2 ≤ max_ps ∧ (aligned = true → region % 2 ^ i2 = 0)) := by
        intro i2 h2 hb2
        rcases Nat.eq_or_lt_of_le h2 with he | hlt
        · rw [← he]
          exact hnq
        · exact habove i2 hlt hb2
      rcases nextSmaller_char v k hv with ⟨hz, hnone⟩ | ⟨i', hi'k, hbit', heq', hmax'⟩
      · rw [hz, psfrLoop_zero]
        right
        refine ⟨rfl, ?_⟩
        intro i hbi
        rcases Nat.lt_or_ge i k with h | h
        · rw [hnone i h] at hbi
          exact absurd hbi (by simp)
        · exact habove' i h hbi
      · rw [heq']
        have habove2 : ∀ i2, i' < i2 → v.testBit i2 = true →
            ¬ (2 ^ i2 ≤ max_ps ∧ (aligned = true → region % 2 ^ i2 = 0)) := by
          intro i2 h2 hb2
          rcases Nat.lt_or_ge i2 k with hlt | hge
          · exfalso
            have := hmax' i2 hlt hb2
            omega
          · exact habove' i2 hge hb2
        rcases ih i' hbit' (by omega) (by omega) habove2 with
          ⟨i, hik, hbi, hQ, hloop, hbest⟩ | ⟨hloop, hnoneq⟩
        · left
          exact ⟨i, by omega, hbi, hQ, hloop, hbest⟩
        · right
          exact ⟨hloop, hnoneq⟩

/-- Amended C5: when UseLargePages is enabled, os::page_size_for_region
returns the first page size, walking registered sizes from largest to
smallest, with page size at most region_size / min_pages and, when alignment
is required, dividing region_size — that is, the largest qualifying mask
element — and falls back to the base OS page size when no registered size
qualifies. -/
theorem page_size_for_region_amended (cfg : PageConfig) (v region min_pages : Nat)
    (aligned : Bool) (hv : v < 2 ^ 64) (hlp : cfg.useLargePages = true) (_hmp : 0 < min_pages) :
    (∃ i, i < 64 ∧ v.testBit i = true ∧
        (2 ^ i ≤ region / min_pages ∧ (aligned = true → region % 2 ^ i = 0)) ∧
        os.page_size_for_region cfg ⟨v⟩ region min_pages aligned = 2 ^ i ∧
        ∀ i2, i < i2 → v.testBit i2 = true →
          ¬ (2 ^ i2 ≤ region / min_pages ∧ (aligned = true → region % 2 ^ i2 = 0))) ∨
    (os.page_size_for_region cfg ⟨v⟩ region min_pages aligned = cfg.vmPageSize ∧
      ∀ i, v.testBit i = true →
        ¬ (2 ^ i ≤ region / min_pages ∧ (aligned = true → region % 2 ^ i = 0))) := by
  unfold os.page_size_for_region
  rw [if_pos hlp]
  rcases largest_char v hv with ⟨hz, hempty⟩ | ⟨t, ht64, hbt, heqt, hmaxt⟩
  · right
    rw [hz, psfrLoop_zero]
    exact ⟨rfl, fun i hbi => absurd hbi (by simp [hempty i])⟩
  · rw [heqt]
    have habove : ∀ i2, t < i2 → v.testBit i2 = true →
        ¬ (2 ^ i2 ≤ region / min_pages ∧ (aligned = true → region % 2 ^ i2 = 0)) :=
      fun i2 h2 hb2 => absurd (hmaxt i2 hb2) (by omega)
    rcases psfrLoop_spec v region (region / min_pages) aligned hv 64 t hbt ht64 (by omega)
        habove with ⟨i, hit, hbi, hQ, hloop, hbest⟩ | ⟨hloop, hnoneq⟩
    · left
      rw [hloop]
      exact ⟨i, by omega, hbi, hQ, rfl, hbest⟩
    · right
      rw [hloop]
      exact ⟨rfl, hnoneq⟩

/-- Counterexample to C5 as stated: the claim omits the UseLargePages gate.
With large pages disabled, a registered 2M size qualifies for a 2M region
(one page, aligned) under the walk the spec sentence describes, yet
os::page_size_for_region returns the 4K base page size. -/
theorem page_size_for_region_claim_counterexample :
    os.page_size_for_region ⟨false, 4096⟩ ⟨2118656⟩ (2 ^ 21) 1 true = 4096 ∧
    pageSizeForRegionClaimed ⟨2118656⟩ (2 ^ 21) 1 true 4096 = 2 ^ 21 ∧
    (4096 : Nat) ≠ 2 ^ 21 := by
  refine ⟨rfl, by decide, by decide⟩

/-- Witness for amended C5: large pages enabled over the 4K, 16K, 2M mask,
with a 2M region and at least 4 pages: the walk must skip 2M and return 16K. -/
theorem page_size_for_region_amended_witness :
    (2118656 : Nat) < 2 ^ 64 ∧ (0 : Nat) < 4 ∧
    ((∃ i, i < 64 ∧ (2118656 : Nat).testBit i = true ∧
        (2 ^ i ≤ 2 ^ 21 / 4 ∧ (true = true → 2 ^ 21 % 2 ^ i = 0)) ∧
        os.page_size_for_region ⟨true, 4096⟩ ⟨2118656⟩ (2 ^ 21) 4 true = 2 ^ i ∧
        ∀ i2, i < i2 → (2118656 : Nat).testBit i2 = true →
          ¬ (2 ^ i2 ≤ 2 ^ 21 / 4 ∧ (true = true → 2 ^ 21 % 2 ^ i2 = 0))) ∨
      (os.page_size_for_region ⟨true, 4096⟩ ⟨2118656⟩ (2 ^ 21) 4 true = 4096 ∧
        ∀ i, (2118656 : Nat).testBit i = true →
          ¬ (2 ^ i ≤ 2 ^ 21 / 4 ∧ (true = true → 2 ^ 21 % 2 ^ i = 0)))) :=
  ⟨by decide, by decide,
    page_size_for_region_amended ⟨true, 4096⟩ 2118656 (2 ^ 21) 4 true (by decide) rfl (by decide)⟩

/-- The two Carta folding steps compute the residue mod 2 to the 31 minus 1:
given the exact decomposition A = lo2 + 2 to the 31 times hs with lo2 a 32
bit value and hs at most 16807, the conditional fold of lo2, the addition of
hs and the second conditional fold yield A mod 2147483647, provided that
residue is not 0. -/
theorem carta_arith (A lo2 hs : Nat)
    (hA : A = lo2 + 2147483648 * hs)
    (hlo2 : lo2 < 4294967296) (hhs : hs ≤ 16807)
    (hAmod : A % 2147483647 ≠ 0) :
    (if 2147483647 <
        ((if 2147483647 < lo2 then (lo2 % 2147483648 + 1) % 4294967296 else lo2) + hs)
          % 4294967296
      then (((if 2147483647 < lo2 then (lo2 % 2147483648 + 1) % 4294967296 else lo2) + hs)
          % 2147483648 + 1) % 4294967296
      else ((if 2147483647 < lo2 then (lo2 % 2147483648 + 1) % 4294967296 else lo2) + hs)
          % 4294967296)
      = A % 2147483647 := by
  have hm1 : (lo2 % 2147483648 + 1) % 4294967296 = lo2 % 2147483648 + 1 :=
    Nat.mod_eq_of_lt (by omega)
  rw [hm1]
  by_cases hb1 : 2147483647 < lo2
  · rw [if_pos hb1]
    have hl3 : lo2 % 2147483648 + 1 = lo2 - 2147483647 := by omega
    rw [hl3]
    have hl4 : (lo2 - 2147483647 + hs) % 4294967296 = lo2 - 2147483647 + hs :=
      Nat.mod_eq_of_lt (by omega)
    rw [hl4]
    by_cases hb2 : 2147483647 < lo2 - 2147483647 + hs
    · rw [if_pos hb2]
      have hstep : (lo2 - 2147483647 + hs) % 2147483648 + 1
          = lo2 - 2147483647 + hs - 2147483647 := by omega
      rw [hstep]
      have hfin : (lo2 - 2147483647 + hs - 2147483647) % 4294967296
          = lo2 - 2147483647 + hs - 2147483647 := Nat.mod_eq_of_lt (by omega)
      rw [hfin]
      omega
    · rw [if_neg hb2]
      omega
  · rw [if_neg hb1]
    have hl4 : (lo2 + hs) % 4294967296 = lo2 + hs := Nat.mod_eq_of_lt (by omega)
    rw [hl4]
    by_cases hb2 : 2147483647 < lo2 + hs
    · rw [if_pos hb2]
      have hstep : (lo2 + hs) % 2147483648 + 1 = lo2 + hs - 2147483647 := by omega
      rw [hstep]
      have hfin : (lo2 + hs - 2147483647) % 4294967296 = lo2 + hs - 2147483647 :=
        Nat.mod_eq_of_lt (by omega)
      rw [hfin]
      omega
    · rw [if_neg hb2]
      omega

/-- The 32 bit factored computation of os::next_random equals the exact
product residue for every seed in the nondegenerate range. -/
theorem next_random_eq_mod (s : Nat) (h1 : 1 ≤ s) (h2 : s ≤ 2 ^ 31 - 2) :
    os.next_random s = (16807 * s) % (2 ^ 31 - 1) := by
  have hand16 : ∀ n : Nat, n &&& 65535 = n % 65536 := fun n => by
    have := land_two_pow_sub_one n 16
    norm_num at this
    exact this
  have hand15 : ∀ n : Nat, n &&& 32767 = n % 32768 := fun n => by
    have := land_two_pow_sub_one n 15
    norm_num at this
    exact this
  have handm : ∀ n : Nat, n &&& 2147483647 = n % 2147483648 := fun n => by
    have := land_two_pow_sub_one n 31
    norm_num at this
    exact this
  have hAmod : (16807 * s) % 2147483647 ≠ 0 := by
    intro h
    have hdvd : 2147483647 ∣ 16807 * s := Nat.dvd_of_mod_eq_zero h
    have hcop : Nat.Coprime 2147483647 16807 := by decide
    have hds : 2147483647 ∣ s := hcop.dvd_of_dvd_mul_left hdvd
    have := Nat.le_of_dvd (by omega) hds
    omega
  unfold os.next_random
  simp only [Nat.shiftRight_eq_div_pow, Nat.shiftLeft_eq, hand16, hand15, handm]
  norm_num
  have hq : s / 65536 ≤ 32767 := by omega
  have hhi : 16807 * (s / 65536) % 4294967296 = 16807 * (s / 65536) :=
    Nat.mod_eq_of_lt (by omega)
  rw [hhi]
  have hlo2 : (16807 * (s % 65536) + 16807 * (s / 65536) % 32768 * 65536) % 4294967296
      = 16807 * (s % 65536) + 16807 * (s / 65536) % 32768 * 65536 :=
    Nat.mod_eq_of_lt (by omega)
  rw [hlo2]
  exact carta_arith (16807 * s)
    (16807 * (s % 65536) + 16807 * (s / 65536) % 32768 * 65536)
    (16807 * (s / 65536) / 32768)
    (by omega) (by omega) (by omega) hAmod

/-- powModAux computes modular exponentiation when given enough fuel. -/
theorem powModAux_eq (m : Nat) : ∀ fuel a b, b < 2 ^ fuel →
    powModAux m fuel a b = a ^ b % m := by
  intro fuel
  induction fuel with
  | zero =>
    intro a b hb
    have hb0 : b = 0 := by omega
    subst hb0
    simp [powModAux]
  | succ fuel ih =>
    intro a b hb
    rw [powModAux]
    by_cases hb0 : b = 0
    · subst hb0
      rw [if_pos rfl]
      simp
    · rw [if_neg hb0]
      have h2 : (2 : Nat) ^ (fuel + 1) = 2 * 2 ^ fuel := by
        rw [pow_succ]
        ring
      have hrec := ih ((a * a) % m) (b / 2) (by omega)
      have hmm : ((a * a) % m) ^ (b / 2) % m = (a * a) ^ (b / 2) % m :=
        (Nat.pow_mod (a * a) (b / 2) m).symm
      rw [hrec, hmm]
      have hsq : (a * a) ^ (b / 2) = a ^ (2 * (b / 2)) := by
        rw [pow_mul]
        ring
      by_cases hpar : b % 2 = 1
      · rw [if_pos hpar]
        rw [Nat.mod_mul_mod, hsq, ← pow_succ]
        have hb2 : 2 * (b / 2) + 1 = b := by omega
        rw [hb2]
      · rw [if_neg hpar]
        rw [hsq]
        have hb2 : 2 * (b / 2) = b := by omega
        rw [hb2]

/-- Every prime divisor of 2147483646 is one of 2, 3, 7, 11, 31, 151, 331. -/
theorem prime_divisors_M31 (p : Nat) (hp : p.Prime) (hd : p ∣ 2147483646) :
    p = 2 ∨ p = 3 ∨ p = 7 ∨ p = 11 ∨ p = 31 ∨ p = 151 ∨ p = 331 := by
  have h : (2147483646 : Nat) = 2 * 3 * 3 * 7 * 11 * 31 * 151 * 331 := by norm_num
  rw [h] at hd
  rcases (hp.dvd_mul).mp hd with h1 | hq
  · rcases (hp.dvd_mul).mp h1 with h2 | hq
    · rcases (hp.dvd_mul).mp h2 with h3 | hq
      · rcases (hp.dvd_mul).mp h3 with h4 | hq
        · rcases (hp.dvd_mul).mp h4 with h5 | hq
          · rcases (hp.dvd_mul).mp h5 with h6 | hq
            · rcases (hp.dvd_mul).mp h6 with h7 | hq
              · exact Or.inl ((Nat.prime_dvd_prime_iff_eq hp (by norm_num)).mp h7)
              · exact Or.inr (Or.inl ((Nat.prime_dvd_prime_iff_eq hp (by norm_num)).mp hq))
            · exact Or.inr (Or.inl ((Nat.prime_dvd_prime_iff_eq hp (by norm_num)).mp hq))
          · exact Or.inr (Or.inr (Or.inl ((Nat.prime_dvd_prime_iff_eq hp (by norm_num)).mp hq)))
        · exact Or.inr (Or.inr (Or.inr (Or.inl
            ((Nat.prime_dvd_prime_iff_eq hp (by norm_num)).mp hq))))
      · exact Or.inr (Or.inr (Or.inr (Or.inr (Or.inl
          ((Nat.prime_dvd_prime_iff_eq hp (by norm_num)).mp hq)))))
    · exact Or.inr (Or.inr (Or.inr (Or.inr (Or.inr (Or.inl
        ((Nat.prime_dvd_prime_iff_eq hp (by norm_num)).mp hq))))))
  · exact Or.inr (Or.inr (Or.inr (Or.inr (Or.inr (Or.inr
      ((Nat.prime_dvd_prime_iff_eq hp (by norm_num)).mp hq))))))

/-- Powers of the generator base in the residue ring are computed by the
certified fast exponentiation. -/
theorem zmod_pow_check (e : Nat) (he : e < 2 ^ 31) :
    (16807 : ZMod 2147483647) ^ e
      = ((powModAux 2147483647 31 16807 e : Nat) : ZMod 2147483647) := by
  have hc : (16807 : ZMod 2147483647) = ((16807 : Nat) : ZMod 2147483647) := by norm_cast
  rw [hc, ← Nat.cast_pow, ← ZMod.natCast_mod, ← powModAux_eq 2147483647 31 16807 e he]

/-- A kernel checked nontrivial power residue yields a nontrivial ring power. -/
theorem pow_ne_one_of_check (e : Nat) (he : e < 2 ^ 31)
    (hne : powModAux 2147483647 31 16807 e ≠ 1) :
    (16807 : ZMod 2147483647) ^ e ≠ 1 := by
  have hlt : powModAux 2147483647 31 16807 e < 2147483647 := by
    rw [powModAux_eq 2147483647 31 16807 e he]
    exact Nat.mod_lt _ (by norm_num)
  rw [zmod_pow_check e he]
  intro hcon
  have hq1 : ((powModAux 2147483647 31 16807 e : Nat) : ZMod 2147483647)
      = ((1 : Nat) : ZMod 2147483647) := by simpa using hcon
  have hq2 := (ZMod.natCast_eq_natCast_iff _ 1 2147483647).mp hq1
  rw [Nat.ModEq] at hq2
  omega

/-- Fermat check for the generator base at the full group order. -/
theorem pow_M31_sub_one_eq_one : (16807 : ZMod 2147483647) ^ 2147483646 = 1 := by
  rw [zmod_pow_check 2147483646 (by norm_num)]
  have h : powModAux 2147483647 31 16807 2147483646 = 1 := by decide
  rw [h]
  norm_num

/-- The generator base has nontrivial power at every maximal proper divisor
of the group order. -/
theorem pow_div_prime_ne_one : ∀ q : ℕ, q.Prime → q ∣ 2147483646 →
    (16807 : ZMod 2147483647) ^ (2147483646 / q) ≠ 1 := by
  intro q hq hd
  rcases prime_divisors_M31 q hq hd with rfl | rfl | rfl | rfl | rfl | rfl | rfl
  · have h : (2147483646 : ℕ) / 2 = 1073741823 := by norm_num
    rw [h]
    exact pow_ne_one_of_check _ (by norm_num) (by decide)
  · have h : (2147483646 : ℕ) / 3 = 715827882 := by norm_num
    rw [h]
    exact pow_ne_one_of_check _ (by norm_num) (by decide)
  · have h : (2147483646 : ℕ) / 7 = 306783378 := by norm_num
    rw [h]
    exact pow_ne_one_of_check _ (by norm_num) (by decide)
  · have h : (2147483646 : ℕ) / 11 = 195225786 := by norm_num
    rw [h]
    exact pow_ne_one_of_check _ (by norm_num) (by decide)
  · have h : (2147483646 : ℕ) / 31 = 69273666 := by norm_num
    rw [h]
    exact pow_ne_one_of_check _ (by norm_num) (by decide)
  · have h : (2147483646 : ℕ) / 151 = 14221746 := by norm_num
    rw [h]
    exact pow_ne_one_of_check _ (by norm_num) (by decide)
  · have h : (2147483646 : ℕ) / 331 = 6487866 := by norm_num
    rw [h]
    exact pow_ne_one_of_check _ (by norm_num) (by decide)

/-- The generator modulus is prime, by the Lucas primality certificate with
witness 16807. -/
theorem M31_prime : Nat.Prime 2147483647 := by
  refine lucas_primality 2147483647 16807 ?_ ?_
  · have h : (2147483647 : ℕ) - 1 = 2147483646 := by norm_num
    rw [h]
    exact pow_M31_sub_one_eq_one
  · intro q hq hd
    have h : (2147483647 : ℕ) - 1 = 2147483646 := by norm_num
    rw [h] at hd ⊢
    exact pow_div_prime_ne_one q hq hd

/-- The generator multiplier is a primitive root mod 2147483647. -/
theorem orderOf_16807 : orderOf (16807 : ZMod 2147483647) = 2147483646 :=
  orderOf_eq_of_pow_and_pow_div_prime (by norm_num) pow_M31_sub_one_eq_one pow_div_prime_ne_one

/-- Products of generator powers with an in-range seed never vanish mod the
prime modulus. -/
theorem pow_mul_mod_ne_zero (k s : Nat) (h1 : 1 ≤ s) (h2 : s ≤ 2147483646) :
    (16807 ^ k * s) % 2147483647 ≠ 0 := by
  intro h
  have hdvd := Nat.dvd_of_mod_eq_zero h
  have hp := M31_prime
  rcases (Nat.Prime.dvd_mul hp).mp hdvd with hk | hs
  · have h7 := Nat.Prime.dvd_of_dvd_pow hp hk
    have := Nat.le_of_dvd (by norm_num) h7
    omega
  · have := Nat.le_of_dvd (by omega) hs
    omega

/-- Iterating next_random computes generator powers mod the modulus and
stays within the nondegenerate range. -/
theorem next_random_iterate_eq (s : Nat) (h1 : 1 ≤ s) (h2 : s ≤ 2147483646) :
    ∀ k, Nat.iterate os.next_random k s = (16807 ^ k * s) % 2147483647 ∧
      1 ≤ Nat.iterate os.next_random k s ∧ Nat.iterate os.next_random k s ≤ 2147483646 := by
  intro k
  induction k with
  | zero =>
    refine ⟨?_, by simpa using h1, by simpa using h2⟩
    simp [Nat.mod_eq_of_lt (by omega : s < 2147483647)]
  | succ k ih =>
    obtain ⟨he, hr1, hr2⟩ := ih
    rw [Function.iterate_succ_apply']
    have heq : os.next_random (Nat.iterate os.next_random k s)
        = (16807 * Nat.iterate os.next_random k s) % 2147483647 := by
      have := next_random_eq_mod (Nat.iterate os.next_random k s) hr1 (by omega)
      simpa using this
    rw [heq, he, Nat.mul_mod_mod]
    have hmul : 16807 * (16807 ^ k * s) = 16807 ^ (k + 1) * s := by ring
    rw [hmul]
    refine ⟨rfl, ?_, ?_⟩
    · have := pow_mul_mod_ne_zero (k + 1) s h1 h2
      omega
    · have := Nat.mod_lt (16807 ^ (k + 1) * s) (show 0 < 2147483647 by norm_num)
      omega

/-- The iterate of next_random returns to its seed exactly at multiples of
the full period. -/
theorem next_random_cycle_iff (s : Nat) (h1 : 1 ≤ s) (h2 : s ≤ 2147483646) (k : Nat) :
    Nat.iterate os.next_random k s = s ↔ 2147483646 ∣ k := by
  have hit := (next_random_iterate_eq s h1 h2 k).1
  rw [hit]
  have hsmod : s % 2147483647 = s := Nat.mod_eq_of_lt (by omega)
  constructor
  · intro heq
    have hme : 16807 ^ k * s ≡ 1 * s [MOD 2147483647] := by
      unfold Nat.ModEq
      rw [one_mul, heq, hsmod]
    have hcop : Nat.gcd 2147483647 s = 1 := by
      have hnd : ¬ (2147483647 ∣ s) := by
        intro hdvd
        have := Nat.le_of_dvd (by omega) hdvd
        omega
      exact (Nat.Prime.coprime_iff_not_dvd M31_prime).mpr hnd
    have hpow : 16807 ^ k ≡ 1 [MOD 2147483647] :=
      Nat.ModEq.cancel_right_of_coprime hcop hme
    have hz : ((16807 ^ k : ℕ) : ZMod 2147483647) = ((1 : ℕ) : ZMod 2147483647) :=
      (ZMod.natCast_eq_natCast_iff _ _ _).mpr hpow
    have hz2 : (16807 : ZMod 2147483647) ^ k = 1 := by
      push_cast at hz
      simpa using hz
    have := orderOf_dvd_iff_pow_eq_one.mpr hz2
    rwa [orderOf_16807] at this
  · intro hdvd
    have hz2 : (16807 : ZMod 2147483647) ^ k = 1 :=
      orderOf_dvd_iff_pow_eq_one.mp (by rw [orderOf_16807]; exact hdvd)
    have hz : ((16807 ^ k : ℕ) : ZMod 2147483647) = ((1 : ℕ) : ZMod 2147483647) := by
      push_cast
      simpa using hz2
    have hpow := (ZMod.natCast_eq_natCast_iff _ _ _).mp hz
    rw [Nat.ModEq] at hpow
    rw [Nat.mul_mod, hpow]
    norm_num
    omega

/-- C6: for every seed in the range 1 to 2 to the 31 minus 2, os::next_random
equals (16807 * seed) mod (2 to the 31 minus 1) computed over exact integers,
despite using only 32 bit machine arithmetic through the factored high and
low computation; the generator is a deterministic function and generates the
full period sequence: iterating it returns to the seed exactly at multiples
of 2 to the 31 minus 2, the multiplier being a primitive root of the prime
modulus. -/
theorem next_random_full_period_spec (seed : Nat) (h1 : 1 ≤ seed) (h2 : seed ≤ 2 ^ 31 - 2) :
    os.next_random seed = (16807 * seed) % (2 ^ 31 - 1) ∧
    ∀ k, Nat.iterate os.next_random k seed = seed ↔ (2 ^ 31 - 2) ∣ k := by
  refine ⟨next_random_eq_mod seed h1 h2, fun k => ?_⟩
  have hres := next_random_cycle_iff seed h1 (by omega) k
  norm_num at hres ⊢
  exact hres

/-- Witness for C6: at seed 1 the next value is 16807 and the return times
are exactly the multiples of the full period. -/
theorem next_random_full_period_spec_witness :
    os.next_random 1 = (16807 * 1) % (2 ^ 31 - 1) ∧
    ∀ k, Nat.iterate os.next_random k 1 = 1 ↔ (2 ^ 31 - 2) ∣ k :=
  next_random_full_period_spec 1 (by decide) (by decide)
